import Mathlib

/-!
Shallow embedding of the CPU-scheduling simulator `parta.c`.

The C process table (`struct pcb*` together with its length `plen`) is
modelled as a `List Pcb`; the length argument that every C function
receives is the list's length.  C `int` values are modelled as `Int`
(the simulator performs no overflowing arithmetic on the inputs the
specification quantifies over).  The C functions `init_procs`,
`run_proc`, `fcfs_run`, `rr_next` and `rr_run` are translated below;
index-based C loops become structural recursions carrying the loop
index.  `fcfs_run` and `rr_run` additionally return the number of
`run_proc` invocations they performed, as instrumentation for the
resource-bound properties; the C code does not count them but the count
changes nothing else.
-/

/-- Translation of `struct pcb` (fields `pid`, `burst_left`, `wait`). -/
structure Pcb where
  pid : Int
  burst_left : Int
  wait : Int
deriving DecidableEq, Inhabited

/-- The loop body of `init_procs`: `procs[i] = {pid = i, burst_left = bursts[i], wait = 0}`
for `i` running over the positions of `bursts`. -/
def init_loop : Nat → List Int → List Pcb
  | _, [] => []
  | i, b :: rest => ⟨(i : Int), b, 0⟩ :: init_loop (i + 1) rest

/-- Translation of `init_procs` (a `NULL` result for an empty input becomes
the empty list). -/
def init_procs (bursts : List Int) : List Pcb :=
  init_loop 0 bursts

/-- The local computation of `run_time` inside `run_proc`:
`run_time = amount; if (available < run_time) run_time = available;`. -/
def run_time_of (procs : List Pcb) (current amount : Int) : Int :=
  let available := (procs.getD current.toNat default).burst_left
  if available < amount then available else amount

/-- The second loop of `run_proc`: every process other than `current`
that still has `burst_left > 0` gets its `wait` increased by `run_time`.
The first argument of the recursion is the running loop index `i`. -/
def wait_loop (current : Nat) (run_time : Int) : Nat → List Pcb → List Pcb
  | _, [] => []
  | i, p :: rest =>
    (if i = current then p
     else if 0 < p.burst_left then { p with wait := p.wait + run_time }
     else p) :: wait_loop current run_time (i + 1) rest

/-- Translation of `run_proc`.  The C guards (`NULL`/empty table,
out-of-range `current`, non-positive `amount`, already-finished current
process) each return the table unchanged. -/
def run_proc (procs : List Pcb) (current amount : Int) : List Pcb :=
  if procs.length = 0 then procs
  else if current < 0 ∨ (procs.length : Int) ≤ current then procs
  else if amount ≤ 0 then procs
  else
    let available := (procs.getD current.toNat default).burst_left
    if available ≤ 0 then procs
    else
      let run_time := run_time_of procs current amount
      wait_loop current.toNat run_time 0
        (procs.set current.toNat
          { procs.getD current.toNat default with
              burst_left := available - run_time })

/-- One iteration of the `fcfs_run` loop at index `i`: skip a finished
process, otherwise run it to completion in one `run_proc` call and add
its remaining burst to the total.  The third state component counts
`run_proc` invocations. -/
def fcfs_step (st : List Pcb × Int × Nat) (i : Nat) : List Pcb × Int × Nat :=
  let remaining := (st.1.getD i default).burst_left
  if remaining ≤ 0 then st
  else (run_proc st.1 (i : Int) remaining, st.2.1 + remaining, st.2.2 + 1)

/-- Translation of `fcfs_run`: iterate the loop body over `i = 0 .. plen-1`. -/
def fcfs_run (procs : List Pcb) : List Pcb × Int × Nat :=
  if procs.length = 0 then (procs, 0, 0)
  else (List.range procs.length).foldl fcfs_step (procs, 0, 0)

/-- The scanning loop of `rr_next`: `for (offset = 0; offset < plen; offset++)`
probing `idx = (start + offset) % plen` (`%` is C truncating remainder,
`Int.tmod`).  The first `Nat` argument counts the probes still allowed,
the second is the current `offset`. -/
def rr_scan (procs : List Pcb) (start : Int) : Nat → Nat → Int
  | 0, _ => -1
  | probes + 1, offset =>
    let idx := (start + (offset : Int)).tmod (procs.length : Int)
    if 0 < (procs.getD idx.toNat default).burst_left then idx
    else rr_scan procs start probes (offset + 1)

/-- Translation of `rr_next`: return `-1` when the table is empty or no
process has work left, otherwise scan circularly from
`(current + 1) % plen`. -/
def rr_next (current : Int) (procs : List Pcb) : Int :=
  if procs.length = 0 then -1
  else if ¬ procs.any (fun p => 0 < p.burst_left) then -1
  else rr_scan procs ((current + 1).tmod (procs.length : Int)) procs.length 0

/-- The initial scan of `rr_run` that finds the first process with work
(`current = -1` when there is none).  The first `Nat` argument counts the
indices still to inspect, the second is the current index. -/
def find_first (procs : List Pcb) : Nat → Nat → Int
  | 0, _ => -1
  | k + 1, i =>
    if 0 < (procs.getD i default).burst_left then (i : Int)
    else find_first procs k (i + 1)

/-- The `while (1)` loop of `rr_run`.  The C loop terminates because
every iteration removes at least one unit of remaining burst; the `Nat`
fuel argument makes that bound explicit (the callers pass a fuel proven
sufficient, so the `0` case is never reached).  The third state
component counts `run_proc` invocations. -/
def rr_loop (quantum : Int) : Nat → List Pcb → Int → Int → Nat → List Pcb × Int × Nat
  | 0, procs, _, total, steps => (procs, total, steps)
  | fuel + 1, procs, current, total, steps =>
    let remaining := (procs.getD current.toNat default).burst_left
    let st :=
      if 0 < remaining then
        let run_time := if remaining < quantum then remaining else quantum
        (run_proc procs current run_time, total + run_time, steps + 1)
      else (procs, total, steps)
    let next := rr_next current st.1
    if next = -1 then st
    else rr_loop quantum fuel st.1 next st.2.1 st.2.2

/-- Sum of the remaining bursts, as a `Nat` (used as loop fuel for
`rr_loop`; it bounds the number of iterations of the C `while` loop). -/
def sumBurstNat (procs : List Pcb) : Nat :=
  (procs.map (fun p => p.burst_left.toNat)).sum

/-- Translation of `rr_run`: guard degenerate inputs, find the first
process with work, then run the round-robin loop. -/
def rr_run (procs : List Pcb) (quantum : Int) : List Pcb × Int × Nat :=
  if procs.length = 0 ∨ quantum ≤ 0 then (procs, 0, 0)
  else
    let current := find_first procs procs.length 0
    if current = -1 then (procs, 0, 0)
    else rr_loop quantum (sumBurstNat procs) procs current 0 0

/-- Sum of the remaining bursts, as an `Int`. -/
def sumBurst (procs : List Pcb) : Int :=
  (procs.map (fun p => p.burst_left)).sum

/-- Sum of the first `k` bursts (prefix sum), used to state the FCFS
closed form. -/
def pSum (b : List Int) (k : Nat) : Int :=
  (b.take k).sum

/-- Number of strictly positive bursts among the first `k`, which is the
number of `run_proc` calls FCFS has made after processing indices
`0 .. k-1`. -/
def fcfsSteps (b : List Int) (k : Nat) : Nat :=
  (b.take k).countP (fun x => 0 < x)

/-- Closed form of the process table after FCFS has processed indices
`0 .. k-1` of the burst list `b` (a proof artifact, not part of the
source): processed positive-burst processes are finished with wait equal
to the prefix sum before them; unprocessed ones still hold their burst
and have waited for every positive burst processed so far. -/
def fcfsStateLoop (b : List Int) (k : Nat) : Nat → List Int → List Pcb
  | _, [] => []
  | i, x :: rest =>
    ⟨(i : Int), if i < k then 0 else x,
      if 0 < x then pSum b (min i k) else 0⟩ :: fcfsStateLoop b k (i + 1) rest

/-- The FCFS closed-form table, starting the index recursion at 0. -/
def fcfsState (b : List Int) (k : Nat) : List Pcb :=
  fcfsStateLoop b k 0 b

/-! ### Basic list access kit -/

theorem getD_lt {α : Type _} (l : List α) (n : Nat) (d : α) (h : n < l.length) :
    l.getD n d = l[n] := by
  simp [List.getD_eq_getElem?_getD, List.getElem?_eq_getElem h]

theorem getD_set_self {α : Type _} (l : List α) (n : Nat) (a d : α) (h : n < l.length) :
    (l.set n a).getD n d = a := by
  simp [List.getD_eq_getElem?_getD, List.getElem?_set, h]

theorem getD_set_ne {α : Type _} (l : List α) {n m : Nat} (a d : α) (h : n ≠ m) :
    (l.set n a).getD m d = l.getD m d := by
  simp [List.getD_eq_getElem?_getD, List.getElem?_set_ne h]

/-! ### The wait loop of run_proc -/

theorem length_wait_loop (c : Nat) (rt : Int) (i : Nat) (l : List Pcb) :
    (wait_loop c rt i l).length = l.length := by
  induction l generalizing i with
  | nil => rfl
  | cons p rest ih => simp [wait_loop, ih]

theorem wait_loop_getD (c : Nat) (rt : Int) (l : List Pcb) (i j : Nat)
    (h : j < l.length) :
    (wait_loop c rt i l).getD j default =
      (if i + j = c then l.getD j default
       else if 0 < (l.getD j default).burst_left then
         { l.getD j default with wait := (l.getD j default).wait + rt }
       else l.getD j default) := by
  induction l generalizing i j with
  | nil => simp at h
  | cons p rest ih =>
    cases j with
    | zero => simp [wait_loop]
    | succ j' =>
      have hlen : j' < rest.length := by simpa using h
      have hrec := ih (i + 1) j' hlen
      have e : (i + 1) + j' = i + (j' + 1) := by omega
      simpa [wait_loop, e] using hrec

theorem wait_loop_map_burst (c : Nat) (rt : Int) (i : Nat) (l : List Pcb) :
    (wait_loop c rt i l).map (fun p => p.burst_left) =
      l.map (fun p => p.burst_left) := by
  induction l generalizing i with
  | nil => rfl
  | cons p rest ih =>
    simp only [wait_loop, List.map_cons, ih]
    congr 1
    by_cases h1 : i = c <;> by_cases h2 : 0 < p.burst_left <;> simp [h1, h2]

/-! ### run_time_of -/

theorem run_time_of_le_available (p : List Pcb) (c a : Int) :
    run_time_of p c a ≤ (p.getD c.toNat default).burst_left := by
  unfold run_time_of
  dsimp only
  split <;> omega

theorem run_time_of_le_amount (p : List Pcb) (c a : Int) :
    run_time_of p c a ≤ a := by
  unfold run_time_of
  dsimp only
  split <;> omega

theorem run_time_of_pos (p : List Pcb) (c a : Int)
    (h1 : 0 < (p.getD c.toNat default).burst_left) (h2 : 0 < a) :
    0 < run_time_of p c a := by
  unfold run_time_of
  dsimp only
  split <;> omega

theorem run_time_of_eq_min (p : List Pcb) (c a : Int) :
    run_time_of p c a = min a (p.getD c.toNat default).burst_left := by
  unfold run_time_of
  dsimp only
  rw [min_def]
  split <;> split <;> omega

/-! ### run_proc -/

theorem run_proc_noop (p : List Pcb) (c a : Int)
    (h : p.length = 0 ∨ c < 0 ∨ (p.length : Int) ≤ c ∨ a ≤ 0 ∨
         (p.getD c.toNat default).burst_left ≤ 0) :
    run_proc p c a = p := by
  unfold run_proc
  dsimp only
  split_ifs with h1 h2 h3 h4 <;> first | rfl | (exfalso; omega)

theorem run_proc_eq_of_valid (p : List Pcb) (c a : Int)
    (h0 : 0 ≤ c) (h1 : c.toNat < p.length)
    (h2 : 0 < (p.getD c.toNat default).burst_left) (h3 : 0 < a) :
    run_proc p c a =
      wait_loop c.toNat (run_time_of p c a) 0
        (p.set c.toNat
          { p.getD c.toNat default with
              burst_left :=
                (p.getD c.toNat default).burst_left - run_time_of p c a }) := by
  have hc : c < (p.length : Int) := (Int.toNat_lt h0).mp h1
  unfold run_proc
  dsimp only
  split_ifs with g1 g2 g3 g4 <;> first | rfl | (exfalso; omega)

theorem run_proc_length (p : List Pcb) (c a : Int) :
    (run_proc p c a).length = p.length := by
  by_cases hv : 0 ≤ c ∧ c.toNat < p.length ∧
      0 < (p.getD c.toNat default).burst_left ∧ 0 < a
  · obtain ⟨h0, h1, h2, h3⟩ := hv
    rw [run_proc_eq_of_valid p c a h0 h1 h2 h3, length_wait_loop, List.length_set]
  · rw [run_proc_noop p c a (by omega)]

theorem run_proc_getD (p : List Pcb) (c a : Int)
    (h0 : 0 ≤ c) (h1 : c.toNat < p.length)
    (h2 : 0 < (p.getD c.toNat default).burst_left) (h3 : 0 < a)
    (j : Nat) (hj : j < p.length) :
    (run_proc p c a).getD j default =
      (if j = c.toNat then
        { p.getD j default with
            burst_left := (p.getD j default).burst_left - run_time_of p c a }
       else if 0 < (p.getD j default).burst_left then
         { p.getD j default with
             wait := (p.getD j default).wait + run_time_of p c a }
       else p.getD j default) := by
  rw [run_proc_eq_of_valid p c a h0 h1 h2 h3]
  rw [wait_loop_getD _ _ _ 0 j (by rw [List.length_set]; exact hj)]
  by_cases hjc : j = c.toNat
  · rw [if_pos (by omega), if_pos hjc, hjc,
      getD_set_self p c.toNat _ default (by omega)]
  · rw [if_neg (by omega), if_neg hjc,
      getD_set_ne p _ default (fun e => hjc e.symm)]

/-! ### Pointwise invariants of run_proc -/

theorem run_proc_getD_burst_le (p : List Pcb) (c a : Int) (j : Nat) :
    ((run_proc p c a).getD j default).burst_left ≤
      (p.getD j default).burst_left := by
  by_cases hv : 0 ≤ c ∧ c.toNat < p.length ∧
      0 < (p.getD c.toNat default).burst_left ∧ 0 < a
  · obtain ⟨h0, h1, h2, h3⟩ := hv
    by_cases hj : j < p.length
    · rw [run_proc_getD p c a h0 h1 h2 h3 j hj]
      have hpos := run_time_of_pos p c a h2 h3
      split_ifs <;> (try dsimp only) <;> omega
    · rw [List.getD_eq_default _ _ (by rw [run_proc_length]; omega),
          List.getD_eq_default _ _ (by omega)]
  · rw [run_proc_noop p c a (by omega)]

theorem run_proc_getD_burst_nonneg (p : List Pcb) (c a : Int) (j : Nat)
    (h : 0 ≤ (p.getD j default).burst_left) :
    0 ≤ ((run_proc p c a).getD j default).burst_left := by
  by_cases hv : 0 ≤ c ∧ c.toNat < p.length ∧
      0 < (p.getD c.toNat default).burst_left ∧ 0 < a
  · obtain ⟨h0, h1, h2, h3⟩ := hv
    by_cases hj : j < p.length
    · rw [run_proc_getD p c a h0 h1 h2 h3 j hj]
      have hle := run_time_of_le_available p c a
      split_ifs with e1 e2 <;> (try dsimp only)
      · rw [e1] at h ⊢
        omega
      · omega
      · omega
    · rw [List.getD_eq_default _ _ (by rw [run_proc_length]; omega)]
      exact le_refl 0
  · rw [run_proc_noop p c a (by omega)]; exact h

theorem run_proc_getD_wait_le (p : List Pcb) (c a : Int) (j : Nat) :
    (p.getD j default).wait ≤ ((run_proc p c a).getD j default).wait := by
  by_cases hv : 0 ≤ c ∧ c.toNat < p.length ∧
      0 < (p.getD c.toNat default).burst_left ∧ 0 < a
  · obtain ⟨h0, h1, h2, h3⟩ := hv
    by_cases hj : j < p.length
    · rw [run_proc_getD p c a h0 h1 h2 h3 j hj]
      have hpos := run_time_of_pos p c a h2 h3
      split_ifs <;> (try dsimp only) <;> omega
    · rw [List.getD_eq_default _ _ (by omega : p.length ≤ j),
          List.getD_eq_default _ _ (by rw [run_proc_length]; omega)]
  · rw [run_proc_noop p c a (by omega)]

theorem run_proc_getD_finished (p : List Pcb) (c a : Int) (j : Nat)
    (h : (p.getD j default).burst_left = 0) :
    (run_proc p c a).getD j default = p.getD j default := by
  by_cases hv : 0 ≤ c ∧ c.toNat < p.length ∧
      0 < (p.getD c.toNat default).burst_left ∧ 0 < a
  · obtain ⟨h0, h1, h2, h3⟩ := hv
    by_cases hj : j < p.length
    · rw [run_proc_getD p c a h0 h1 h2 h3 j hj]
      rw [if_neg (by intro e; rw [e] at h; omega), if_neg (by omega)]
    · rw [List.getD_eq_default _ _ (by rw [run_proc_length]; omega),
          List.getD_eq_default _ _ (by omega)]
  · rw [run_proc_noop p c a (by omega)]

/-! ### Sums of bursts -/

theorem sum_set_int (l : List Int) (n : Nat) (x : Int) (h : n < l.length) :
    (l.set n x).sum = l.sum - l.getD n 0 + x := by
  induction l generalizing n with
  | nil => simp at h
  | cons y rest ih =>
    cases n with
    | zero => simp [List.set]; ring
    | succ n' =>
      have hrec := ih n' (by simpa using h)
      simp [List.set, hrec]; ring

theorem sumBurst_cons (q : Pcb) (rest : List Pcb) :
    sumBurst (q :: rest) = q.burst_left + sumBurst rest := by
  simp [sumBurst]

theorem sumBurst_run_proc (p : List Pcb) (c a : Int)
    (h0 : 0 ≤ c) (h1 : c.toNat < p.length)
    (h2 : 0 < (p.getD c.toNat default).burst_left) (h3 : 0 < a) :
    sumBurst (run_proc p c a) = sumBurst p - run_time_of p c a := by
  rw [run_proc_eq_of_valid p c a h0 h1 h2 h3]
  unfold sumBurst
  rw [wait_loop_map_burst, List.map_set,
      sum_set_int _ c.toNat _ (by simpa using h1)]
  have e : (p.map (fun q => q.burst_left)).getD c.toNat 0 =
      (p.getD c.toNat default).burst_left := by
    rw [getD_lt _ _ _ (by simpa using h1), getD_lt _ _ _ h1, List.getElem_map]
  rw [e]
  dsimp only
  ring

theorem forall_mem_iff_getD (P : Pcb → Prop) (l : List Pcb) :
    (∀ q ∈ l, P q) ↔ ∀ j, j < l.length → P (l.getD j default) := by
  constructor
  · intro h j hj
    rw [getD_lt _ _ _ hj]
    exact h _ (l.getElem_mem hj)
  · intro h q hq
    obtain ⟨j, hj, rfl⟩ := List.mem_iff_getElem.mp hq
    rw [← getD_lt _ _ _ hj]
    exact h j hj

theorem run_proc_nonneg (p : List Pcb) (c a : Int)
    (h : ∀ q ∈ p, 0 ≤ q.burst_left) :
    ∀ q ∈ run_proc p c a, 0 ≤ q.burst_left := by
  rw [forall_mem_iff_getD] at h ⊢
  intro j hj
  exact run_proc_getD_burst_nonneg p c a j
    (h j (by rw [run_proc_length] at hj; exact hj))

theorem sumBurst_nonneg (l : List Pcb) (h : ∀ q ∈ l, 0 ≤ q.burst_left) :
    0 ≤ sumBurst l := by
  induction l with
  | nil => simp [sumBurst]
  | cons q rest ih =>
    have h1 : 0 ≤ q.burst_left := h q (by simp)
    have h2 := ih (fun r hr => h r (by simp [hr]))
    rw [sumBurst_cons]
    omega

theorem getD_burst_le_sumBurst (l : List Pcb)
    (h : ∀ q ∈ l, 0 ≤ q.burst_left) (j : Nat) (hj : j < l.length) :
    (l.getD j default).burst_left ≤ sumBurst l := by
  induction l generalizing j with
  | nil => simp at hj
  | cons q rest ih =>
    have h1 : 0 ≤ q.burst_left := h q (by simp)
    have hr : ∀ r ∈ rest, 0 ≤ r.burst_left := fun r hrm => h r (by simp [hrm])
    cases j with
    | zero =>
      have := sumBurst_nonneg rest hr
      rw [sumBurst_cons]
      simp only [List.getD_cons_zero]
      omega
    | succ j' =>
      have hrec := ih hr j' (by simpa using hj)
      rw [sumBurst_cons]
      simp only [List.getD_cons_succ]
      omega

theorem sumBurstNat_cast (l : List Pcb) (h : ∀ q ∈ l, 0 ≤ q.burst_left) :
    (sumBurstNat l : Int) = sumBurst l := by
  induction l with
  | nil => rfl
  | cons q rest ih =>
    have h1 : 0 ≤ q.burst_left := h q (by simp)
    have h2 := ih (fun r hr => h r (by simp [hr]))
    simp only [sumBurstNat, sumBurst, List.map_cons, List.sum_cons] at h2 ⊢
    push_cast at h2 ⊢
    omega

theorem sumBurst_eq_zero (l : List Pcb) (h : ∀ q ∈ l, q.burst_left = 0) :
    sumBurst l = 0 := by
  induction l with
  | nil => rfl
  | cons q rest ih =>
    rw [sumBurst_cons, h q (by simp), ih (fun r hr => h r (by simp [hr]))]
    ring

/-! ### Modular arithmetic helpers for the circular scan -/

theorem tmod_nonneg_eq (a b : Int) (ha : 0 ≤ a) (hb : 0 < b) :
    a.tmod b = a % b ∧ 0 ≤ a.tmod b ∧ a.tmod b < b := by
  have he : a.tmod b = a % b := Int.tmod_eq_emod ha (le_of_lt hb)
  refine ⟨he, ?_, ?_⟩
  · rw [he]
    exact Int.emod_nonneg a (by omega)
  · rw [he]
    exact Int.emod_lt_of_pos a hb

theorem emod_start_add (start j len : Int) (hj0 : 0 ≤ j) (hj1 : j < len) :
    (start + (j - start) % len) % len = j := by
  have h1 : (start + (j - start) % len) % len = (start + (j - start)) % len := by
    conv_lhs => rw [Int.add_emod]
    conv_rhs => rw [Int.add_emod]
    rw [Int.emod_emod_of_dvd _ dvd_rfl]
  rw [h1]
  have h2 : start + (j - start) = j := by ring
  rw [h2, Int.emod_eq_of_lt hj0 hj1]

/-! ### The circular scan of rr_next -/

theorem rr_scan_sound (p : List Pcb) (start : Int) (probes offset : Nat)
    (h : rr_scan p start probes offset ≠ -1) :
    ∃ m, offset ≤ m ∧ m < offset + probes ∧
      rr_scan p start probes offset = (start + (m : Int)).tmod (p.length : Int) ∧
      0 < ((p.getD ((start + (m : Int)).tmod (p.length : Int)).toNat
        default).burst_left) ∧
      ∀ m', offset ≤ m' → m' < m →
        ¬ 0 < ((p.getD ((start + (m' : Int)).tmod (p.length : Int)).toNat
          default).burst_left) := by
  induction probes generalizing offset with
  | zero => exact absurd rfl h
  | succ probes ih =>
    by_cases hact :
        0 < ((p.getD ((start + (offset : Int)).tmod (p.length : Int)).toNat
          default).burst_left)
    · refine ⟨offset, le_refl _, by omega, ?_, hact, fun m' h1 h2 => by omega⟩
      simp only [rr_scan]
      rw [if_pos hact]
    · have he : rr_scan p start (probes + 1) offset =
          rr_scan p start probes (offset + 1) := by
        simp only [rr_scan]
        rw [if_neg hact]
      rw [he] at h ⊢
      obtain ⟨m, hm1, hm2, hm3, hm4, hm5⟩ := ih (offset + 1) h
      refine ⟨m, by omega, by omega, hm3, hm4, ?_⟩
      intro m' h1 h2
      by_cases hm' : m' = offset
      · rw [hm']
        exact hact
      · exact hm5 m' (by omega) h2

theorem rr_scan_complete (p : List Pcb) (start : Int) (probes offset : Nat)
    (hlen : 0 < p.length) (hstart : 0 ≤ start)
    (h : ∃ m, offset ≤ m ∧ m < offset + probes ∧
      0 < ((p.getD ((start + (m : Int)).tmod (p.length : Int)).toNat
        default).burst_left)) :
    rr_scan p start probes offset ≠ -1 := by
  induction probes generalizing offset with
  | zero =>
    obtain ⟨m, h1, h2, _⟩ := h
    omega
  | succ probes ih =>
    by_cases hact :
        0 < ((p.getD ((start + (offset : Int)).tmod (p.length : Int)).toNat
          default).burst_left)
    · have he : rr_scan p start (probes + 1) offset =
          (start + (offset : Int)).tmod (p.length : Int) := by
        simp only [rr_scan]
        rw [if_pos hact]
      rw [he]
      have := (tmod_nonneg_eq (start + (offset : Int)) (p.length : Int)
        (by omega) (by exact_mod_cast hlen)).2.1
      omega
    · have he : rr_scan p start (probes + 1) offset =
          rr_scan p start probes (offset + 1) := by
        simp only [rr_scan]
        rw [if_neg hact]
      rw [he]
      obtain ⟨m, h1, h2, h3⟩ := h
      have hm : m ≠ offset := by
        intro e
        rw [e] at h3
        exact hact h3
      exact ih (offset + 1) ⟨m, by omega, by omega, h3⟩

/-! ### find_first -/

theorem find_first_sound (p : List Pcb) (k i : Nat)
    (h : find_first p k i ≠ -1) :
    ∃ j, i ≤ j ∧ j < i + k ∧ find_first p k i = (j : Int) ∧
      0 < ((p.getD j default).burst_left) ∧
      ∀ j', i ≤ j' → j' < j → ¬ 0 < ((p.getD j' default).burst_left) := by
  induction k generalizing i with
  | zero => exact absurd rfl h
  | succ k ih =>
    by_cases hact : 0 < ((p.getD i default).burst_left)
    · refine ⟨i, le_refl _, by omega, ?_, hact, fun j' h1 h2 => by omega⟩
      simp only [find_first]
      rw [if_pos hact]
    · have he : find_first p (k + 1) i = find_first p k (i + 1) := by
        simp only [find_first]
        rw [if_neg hact]
      rw [he] at h ⊢
      obtain ⟨j, h1, h2, h3, h4, h5⟩ := ih (i + 1) h
      refine ⟨j, by omega, by omega, h3, h4, ?_⟩
      intro j' g1 g2
      by_cases hj' : j' = i
      · rw [hj']
        exact hact
      · exact h5 j' (by omega) g2

theorem find_first_complete (p : List Pcb) (k i : Nat)
    (h : ∃ j, i ≤ j ∧ j < i + k ∧ 0 < ((p.getD j default).burst_left)) :
    find_first p k i ≠ -1 := by
  induction k generalizing i with
  | zero =>
    obtain ⟨j, h1, h2, _⟩ := h
    omega
  | succ k ih =>
    by_cases hact : 0 < ((p.getD i default).burst_left)
    · have he : find_first p (k + 1) i = (i : Int) := by
        simp only [find_first]
        rw [if_pos hact]
      rw [he]
      omega
    · have he : find_first p (k + 1) i = find_first p k (i + 1) := by
        simp only [find_first]
        rw [if_neg hact]
      rw [he]
      obtain ⟨j, h1, h2, h3⟩ := h
      have hj : j ≠ i := by
        intro e
        rw [e] at h3
        exact hact h3
      exact ih (i + 1) ⟨j, by omega, by omega, h3⟩

/-! ### rr_next -/

theorem any_burst_iff (p : List Pcb) :
    (p.any fun q => 0 < q.burst_left) = true ↔
      ∃ j, j < p.length ∧ 0 < ((p.getD j default).burst_left) := by
  rw [List.any_eq_true]
  constructor
  · rintro ⟨x, hx, hb⟩
    obtain ⟨j, hj, rfl⟩ := List.mem_iff_getElem.mp hx
    exact ⟨j, hj, by rw [getD_lt _ _ _ hj]; exact of_decide_eq_true hb⟩
  · rintro ⟨j, hj, hb⟩
    refine ⟨p[j], List.getElem_mem hj, ?_⟩
    rw [getD_lt _ _ _ hj] at hb
    exact decide_eq_true hb

theorem rr_next_eq_scan (current : Int) (p : List Pcb)
    (hlen : 0 < p.length)
    (hact : ∃ j, j < p.length ∧ 0 < ((p.getD j default).burst_left)) :
    rr_next current p =
      rr_scan p ((current + 1).tmod (p.length : Int)) p.length 0 := by
  unfold rr_next
  rw [if_neg (by omega), if_neg (by rw [not_not]; exact (any_burst_iff p).mpr hact)]

theorem rr_next_ne_neg_one (current : Int) (p : List Pcb)
    (hlen : 0 < p.length) (h0 : 0 ≤ current)
    (hact : ∃ j, j < p.length ∧ 0 < ((p.getD j default).burst_left)) :
    rr_next current p ≠ -1 := by
  rw [rr_next_eq_scan current p hlen hact]
  have hlen' : (0 : Int) < (p.length : Int) := by exact_mod_cast hlen
  obtain ⟨hs_eq, hs0, hs1⟩ :=
    tmod_nonneg_eq (current + 1) (p.length : Int) (by omega) hlen'
  set start := (current + 1).tmod (p.length : Int) with hstart
  obtain ⟨j, hj, hb⟩ := hact
  have hj' : (0 : Int) ≤ (j : Int) := by omega
  have hj'' : (j : Int) < (p.length : Int) := by exact_mod_cast hj
  refine rr_scan_complete p start p.length 0 hlen hs0
    ⟨(((j : Int) - start) % (p.length : Int)).toNat, by omega, ?_, ?_⟩
  · have ha := Int.emod_lt_of_pos ((j : Int) - start) hlen'
    have hb2 : (0 : Int) ≤ ((j : Int) - start) % (p.length : Int) :=
      Int.emod_nonneg _ (by omega)
    omega
  · have hm0 : (0 : Int) ≤ ((j : Int) - start) % (p.length : Int) :=
      Int.emod_nonneg _ (by omega)
    have hcast : ((((j : Int) - start) % (p.length : Int)).toNat : Int) =
        ((j : Int) - start) % (p.length : Int) := Int.toNat_of_nonneg hm0
    rw [hcast]
    have he : (start + ((j : Int) - start) % (p.length : Int)).tmod
        (p.length : Int) = (j : Int) := by
      have := (tmod_nonneg_eq (start + ((j : Int) - start) % (p.length : Int))
        (p.length : Int) (by omega) hlen').1
      rw [this, emod_start_add start (j : Int) (p.length : Int) hj' hj'']
    rw [he]
    simpa using hb

theorem rr_next_eq_neg_one_iff (current : Int) (p : List Pcb)
    (hlen : 0 < p.length) (h0 : 0 ≤ current) :
    rr_next current p = -1 ↔ ∀ q ∈ p, q.burst_left ≤ 0 := by
  constructor
  · intro h
    by_contra hc
    push_neg at hc
    obtain ⟨q, hq, hb⟩ := hc
    obtain ⟨j, hj, rfl⟩ := List.mem_iff_getElem.mp hq
    exact rr_next_ne_neg_one current p hlen h0
      ⟨j, hj, by rw [getD_lt _ _ _ hj]; omega⟩ h
  · intro h
    have hno : ¬ (p.any fun q => 0 < q.burst_left) = true := by
      intro hany
      obtain ⟨j, hj, hb⟩ := (any_burst_iff p).mp hany
      have hm := h (p.getD j default)
        (by rw [getD_lt _ _ _ hj]; exact p.getElem_mem hj)
      omega
    unfold rr_next
    rw [if_neg (by omega), if_pos hno]

theorem rr_next_result (current : Int) (p : List Pcb)
    (hlen : 0 < p.length) (h0 : 0 ≤ current)
    (hact : ∃ j, j < p.length ∧ 0 < ((p.getD j default).burst_left)) :
    ∃ m, m < p.length ∧
      rr_next current p =
        ((current + 1).tmod (p.length : Int) + (m : Int)).tmod (p.length : Int) ∧
      0 < ((p.getD (rr_next current p).toNat default).burst_left) ∧
      0 ≤ rr_next current p ∧ (rr_next current p).toNat < p.length ∧
      ∀ m' < m, ¬ 0 < ((p.getD
        (((current + 1).tmod (p.length : Int) + (m' : Int)).tmod
          (p.length : Int)).toNat default).burst_left) := by
  have hne := rr_next_ne_neg_one current p hlen h0 hact
  rw [rr_next_eq_scan current p hlen hact] at hne ⊢
  obtain ⟨m, hm0, hm1, hm2, hm3, hm4⟩ := rr_scan_sound p _ p.length 0 hne
  have hlen' : (0 : Int) < (p.length : Int) := by exact_mod_cast hlen
  obtain ⟨hs_eq, hs0, hs1⟩ := tmod_nonneg_eq (current + 1) _ (by omega) hlen'
  obtain ⟨ht_eq, ht0, ht1⟩ :=
    tmod_nonneg_eq ((current + 1).tmod (p.length : Int) + (m : Int)) _
      (by omega) hlen'
  refine ⟨m, by omega, hm2, ?_, ?_, ?_, fun m' hm' => hm4 m' (by omega) hm'⟩
  · rw [hm2]
    exact hm3
  · rw [hm2]
    omega
  · rw [hm2]
    exact (Int.toNat_lt ht0).mpr ht1

theorem exists_active_of_rr_next_ne (current : Int) (p : List Pcb)
    (hlen : 0 < p.length) (h0 : 0 ≤ current)
    (hne : rr_next current p ≠ -1) :
    ∃ j, j < p.length ∧ 0 < ((p.getD j default).burst_left) := by
  by_contra hcon
  push_neg at hcon
  apply hne
  rw [rr_next_eq_neg_one_iff current p hlen h0, forall_mem_iff_getD]
  intro j hj
  have := hcon j hj
  omega

theorem rr_next_active (current : Int) (p : List Pcb)
    (hlen : 0 < p.length) (h0 : 0 ≤ current)
    (hne : rr_next current p ≠ -1) :
    0 ≤ rr_next current p ∧ (rr_next current p).toNat < p.length ∧
      0 < ((p.getD (rr_next current p).toNat default).burst_left) := by
  obtain ⟨m, _, _, h3, h4, h5, _⟩ := rr_next_result current p hlen h0
    (exists_active_of_rr_next_ne current p hlen h0 hne)
  exact ⟨h4, h5, h3⟩

theorem rr_next_gt (current : Int) (p : List Pcb)
    (hlen : 0 < p.length) (h0 : 0 ≤ current) (hc : current.toNat < p.length)
    (hall : ∀ j, j ≤ current.toNat → j < p.length →
      ¬ 0 < ((p.getD j default).burst_left)) :
    rr_next current p = -1 ∨
    ∃ n : Nat, current.toNat < n ∧ n < p.length ∧
      rr_next current p = (n : Int) ∧
      0 < ((p.getD n default).burst_left) ∧
      ∀ j, current.toNat < j → j < n →
        ¬ 0 < ((p.getD j default).burst_left) := by
  by_cases hne : rr_next current p = -1
  · left
    exact hne
  right
  have hact := exists_active_of_rr_next_ne current p hlen h0 hne
  obtain ⟨m, hmlen, hmeq, hmact, hge0, hlt, hmin⟩ :=
    rr_next_result current p hlen h0 hact
  have hlen' : (0 : Int) < (p.length : Int) := by exact_mod_cast hlen
  by_cases hedge : current.toNat + 1 = p.length
  · exfalso
    obtain ⟨j, hj, hb⟩ := hact
    exact hall j (by omega) hj hb
  have hstart : (current + 1).tmod (p.length : Int) = current + 1 := by
    have h1 : (0 : Int) ≤ current + 1 := by omega
    have h2 : current + 1 < (p.length : Int) := by omega
    rw [(tmod_nonneg_eq _ _ h1 hlen').1, Int.emod_eq_of_lt h1 h2]
  rw [hstart] at hmeq hmin
  have hmlen' : ((m : Nat) : Int) < (p.length : Int) := by exact_mod_cast hmlen
  by_cases hX : current + 1 + (m : Int) < (p.length : Int)
  · have hXeq : (current + 1 + (m : Int)).tmod (p.length : Int) =
        current + 1 + (m : Int) := by
      rw [(tmod_nonneg_eq _ _ (by omega) hlen').1,
          Int.emod_eq_of_lt (by omega) hX]
    have hvn : (rr_next current p).toNat = current.toNat + 1 + m := by
      rw [hmeq, hXeq]
      omega
    refine ⟨current.toNat + 1 + m, by omega, by omega, ?_, ?_, ?_⟩
    · rw [hmeq, hXeq]
      omega
    · rw [← hvn]
      exact hmact
    · intro j hj1 hj2
      have hm' : j - (current.toNat + 1) < m := by omega
      have hthis := hmin (j - (current.toNat + 1)) hm'
      have e2 : ((j : Nat) : Int) < (p.length : Int) := by
        exact_mod_cast (by omega : j < p.length)
      have hidx : (current + 1 + ((j - (current.toNat + 1) : Nat) : Int)).tmod
          (p.length : Int) = (j : Int) := by
        have e1 : current + 1 + ((j - (current.toNat + 1) : Nat) : Int) =
            (j : Int) := by
          omega
        rw [e1, (tmod_nonneg_eq _ _ (by omega) hlen').1,
            Int.emod_eq_of_lt (by omega) e2]
      rw [hidx] at hthis
      simpa using hthis
  · exfalso
    have hXeq : (current + 1 + (m : Int)).tmod (p.length : Int) =
        current + 1 + (m : Int) - (p.length : Int) := by
      rw [(tmod_nonneg_eq _ _ (by omega) hlen').1]
      calc (current + 1 + (m : Int)) % (p.length : Int)
          = ((current + 1 + (m : Int) - (p.length : Int)) +
              (p.length : Int) * 1) % (p.length : Int) := by ring_nf
        _ = (current + 1 + (m : Int) - (p.length : Int)) % (p.length : Int) :=
            Int.add_mul_emod_self_left _ _ _
        _ = current + 1 + (m : Int) - (p.length : Int) :=
            Int.emod_eq_of_lt (by omega) (by omega)
    have hval : (rr_next current p).toNat ≤ current.toNat := by
      rw [hmeq, hXeq]
      omega
    exact hall _ hval hlt hmact

/-! ### The round-robin driver loop -/

theorem rr_loop_succ_active (quantum : Int) (fuel : Nat) (procs : List Pcb)
    (current total : Int) (steps : Nat) (rt : Int)
    (hrt : rt = if (procs.getD current.toNat default).burst_left < quantum
      then (procs.getD current.toNat default).burst_left else quantum)
    (hact : 0 < ((procs.getD current.toNat default).burst_left)) :
    rr_loop quantum (fuel + 1) procs current total steps =
      if rr_next current (run_proc procs current rt) = -1
      then (run_proc procs current rt, total + rt, steps + 1)
      else rr_loop quantum fuel (run_proc procs current rt)
        (rr_next current (run_proc procs current rt)) (total + rt)
        (steps + 1) := by
  subst hrt
  simp only [rr_loop]
  rw [if_pos hact]

theorem rr_loop_spec (quantum : Int) (hq : 1 ≤ quantum) (fuel : Nat) :
    ∀ (procs : List Pcb) (current total : Int) (steps : Nat),
      (∀ q ∈ procs, 0 ≤ q.burst_left) →
      0 ≤ current →
      current.toNat < procs.length →
      0 < ((procs.getD current.toNat default).burst_left) →
      sumBurst procs ≤ (fuel : Int) →
      (rr_loop quantum fuel procs current total steps).2.1 =
          total + sumBurst procs ∧
        (∀ q ∈ (rr_loop quantum fuel procs current total steps).1,
          q.burst_left = 0) ∧
        (rr_loop quantum fuel procs current total steps).2.2 ≤
          steps + (sumBurst procs).toNat := by
  induction fuel with
  | zero =>
    intro procs current total steps hnn h0 hlt hact hfuel
    exfalso
    have hle := getD_burst_le_sumBurst procs hnn current.toNat hlt
    omega
  | succ fuel ih =>
    intro procs current total steps hnn h0 hlt hact hfuel
    rw [rr_loop_succ_active quantum fuel procs current total steps _ rfl hact]
    set rt := (if (procs.getD current.toNat default).burst_left < quantum
      then (procs.getD current.toNat default).burst_left else quantum)
      with hrt_def
    have hrt1 : 1 ≤ rt := by
      rw [hrt_def]
      split <;> omega
    have hrt2 : rt ≤ (procs.getD current.toNat default).burst_left := by
      rw [hrt_def]
      split <;> omega
    have hrt_of : run_time_of procs current rt = rt := by
      unfold run_time_of
      dsimp only
      rw [if_neg (by omega)]
    have hsum' : sumBurst (run_proc procs current rt) = sumBurst procs - rt := by
      rw [sumBurst_run_proc procs current rt h0 hlt hact (by omega), hrt_of]
    have hnn' := run_proc_nonneg procs current rt hnn
    have hlen2 : (run_proc procs current rt).length = procs.length :=
      run_proc_length procs current rt
    by_cases hnext : rr_next current (run_proc procs current rt) = -1
    · rw [if_pos hnext]
      have hzero : ∀ q ∈ run_proc procs current rt, q.burst_left = 0 := by
        have hle := (rr_next_eq_neg_one_iff current _
          (by omega) h0).mp hnext
        intro q hq
        have g1 := hle q hq
        have g2 := hnn' q hq
        omega
      have hsum0 : sumBurst (run_proc procs current rt) = 0 :=
        sumBurst_eq_zero _ hzero
      refine ⟨?_, hzero, ?_⟩
      · dsimp only
        omega
      · dsimp only
        omega
    · rw [if_neg hnext]
      have hlenpos' : 0 < (run_proc procs current rt).length := by omega
      obtain ⟨ha1, ha2, ha3⟩ := rr_next_active current _ hlenpos' h0 hnext
      have hsum_le : sumBurst (run_proc procs current rt) ≤ (fuel : Int) := by
        omega
      obtain ⟨ih1, ih2, ih3⟩ := ih (run_proc procs current rt)
        (rr_next current (run_proc procs current rt)) (total + rt)
        (steps + 1) hnn' ha1 ha2 ha3 hsum_le
      have hnn0 : 0 ≤ sumBurst (run_proc procs current rt) :=
        sumBurst_nonneg _ hnn'
      refine ⟨?_, ih2, ?_⟩
      · rw [ih1, hsum']
        ring
      · omega

/-! ### init_procs and the FCFS closed form -/

theorem length_init_loop (i : Nat) (l : List Int) :
    (init_loop i l).length = l.length := by
  induction l generalizing i with
  | nil => rfl
  | cons x rest ih => simp [init_loop, ih]

theorem length_init_procs (b : List Int) : (init_procs b).length = b.length :=
  length_init_loop 0 b

theorem init_loop_getD (l : List Int) (i j : Nat) (h : j < l.length) :
    (init_loop i l).getD j default = ⟨((i + j : Nat) : Int), l.getD j 0, 0⟩ := by
  induction l generalizing i j with
  | nil => simp at h
  | cons x rest ih =>
    cases j with
    | zero => simp [init_loop]
    | succ j' =>
      have hrec := ih (i + 1) j' (by simpa using h)
      have e : (i + 1) + j' = i + (j' + 1) := by omega
      simpa [init_loop, e] using hrec

theorem init_procs_getD (b : List Int) (j : Nat) (h : j < b.length) :
    (init_procs b).getD j default = ⟨(j : Int), b.getD j 0, 0⟩ := by
  have := init_loop_getD b 0 j h
  simpa [init_procs] using this

theorem length_fcfsStateLoop (b : List Int) (k : Nat) (i : Nat) (l : List Int) :
    (fcfsStateLoop b k i l).length = l.length := by
  induction l generalizing i with
  | nil => rfl
  | cons x rest ih => simp [fcfsStateLoop, ih]

theorem length_fcfsState (b : List Int) (k : Nat) :
    (fcfsState b k).length = b.length :=
  length_fcfsStateLoop b k 0 b

theorem fcfsStateLoop_getD (b : List Int) (k : Nat) (l : List Int)
    (i j : Nat) (h : j < l.length) :
    (fcfsStateLoop b k i l).getD j default =
      ⟨((i + j : Nat) : Int), if i + j < k then 0 else l.getD j 0,
        if 0 < l.getD j 0 then pSum b (min (i + j) k) else 0⟩ := by
  induction l generalizing i j with
  | nil => simp at h
  | cons x rest ih =>
    cases j with
    | zero => simp [fcfsStateLoop]
    | succ j' =>
      have hrec := ih (i + 1) j' (by simpa using h)
      have e : (i + 1) + j' = i + (j' + 1) := by omega
      simpa [fcfsStateLoop, e] using hrec

theorem fcfsState_getD (b : List Int) (k j : Nat) (h : j < b.length) :
    (fcfsState b k).getD j default =
      ⟨(j : Int), if j < k then 0 else b.getD j 0,
        if 0 < b.getD j 0 then pSum b (min j k) else 0⟩ := by
  have := fcfsStateLoop_getD b k b 0 j h
  simpa [fcfsState] using this

theorem pSum_zero (b : List Int) : pSum b 0 = 0 := rfl

theorem pSum_succ (b : List Int) (k : Nat) (hk : k < b.length) :
    pSum b (k + 1) = pSum b k + b.getD k 0 := by
  unfold pSum
  rw [List.sum_take_succ b k hk, getD_lt b k 0 hk]

theorem fcfsSteps_zero (b : List Int) : fcfsSteps b 0 = 0 := rfl

theorem fcfsSteps_succ (b : List Int) (k : Nat) (hk : k < b.length) :
    fcfsSteps b (k + 1) = fcfsSteps b k + (if 0 < b.getD k 0 then 1 else 0) := by
  unfold fcfsSteps
  rw [List.take_succ, List.getElem?_eq_getElem hk]
  rw [List.countP_append, getD_lt b k 0 hk]
  by_cases hx : 0 < b[k]
  · rw [if_pos hx]
    simp [List.countP_cons, hx]
  · rw [if_neg hx]
    simp [List.countP_cons, hx]

theorem fcfsState_zero (b : List Int) : fcfsState b 0 = init_procs b := by
  apply List.ext_getElem
  · rw [length_fcfsState, length_init_procs]
  · intro n h1 h2
    have hn : n < b.length := by rwa [length_fcfsState] at h1
    rw [← getD_lt _ n default h1, ← getD_lt _ n default h2,
        fcfsState_getD b 0 n hn, init_procs_getD b n hn]
    rw [if_neg (by omega)]
    have e1 : min n 0 = 0 := by omega
    rw [e1, pSum_zero, ite_self]

theorem fcfs_step_state (b : List Int) (hb : ∀ x ∈ b, 0 ≤ x) (k : Nat)
    (hk : k < b.length) :
    fcfs_step (fcfsState b k, pSum b k, fcfsSteps b k) k =
      (fcfsState b (k + 1), pSum b (k + 1), fcfsSteps b (k + 1)) := by
  have hlen : (fcfsState b k).length = b.length := length_fcfsState b k
  have hrem : ((fcfsState b k).getD k default).burst_left = b.getD k 0 := by
    rw [fcfsState_getD b k k hk]
    dsimp only
    rw [if_neg (by omega)]
  have hbk : 0 ≤ b.getD k 0 := by
    rw [getD_lt b k 0 hk]
    exact hb _ (b.getElem_mem hk)
  unfold fcfs_step
  dsimp only
  rw [hrem]
  by_cases hcase : b.getD k 0 ≤ 0
  · rw [if_pos hcase]
    have hbk0 : b.getD k 0 = 0 := by omega
    have hps : pSum b (k + 1) = pSum b k := by
      rw [pSum_succ b k hk, hbk0]
      ring
    have e1 : fcfsState b (k + 1) = fcfsState b k := by
      apply List.ext_getElem
      · rw [length_fcfsState, length_fcfsState]
      · intro n h1 h2
        have hn : n < b.length := by rwa [length_fcfsState] at h1
        rw [← getD_lt _ n default h1, ← getD_lt _ n default h2,
            fcfsState_getD b (k + 1) n hn, fcfsState_getD b k n hn]
        rcases lt_trichotomy n k with hnk | hnk | hnk
        · rw [if_pos (show n < k + 1 by omega), if_pos (show n < k by omega)]
          have e : min n (k + 1) = min n k := by omega
          rw [e]
        · rw [hnk, hbk0]
          simp
        · rw [if_neg (show ¬ n < k + 1 by omega),
              if_neg (show ¬ n < k by omega)]
          have e2 : min n (k + 1) = k + 1 := by omega
          have e3 : min n k = k := by omega
          rw [e2, e3, hps]
    have e5 : fcfsSteps b (k + 1) = fcfsSteps b k := by
      rw [fcfsSteps_succ b k hk, if_neg (by omega)]
      omega
    rw [e1, hps, e5]
  · rw [if_neg hcase]
    push_neg at hcase
    have hv0 : (0 : Int) ≤ (k : Int) := by omega
    have hvt : ((k : Int)).toNat = k := by omega
    have hv1 : ((k : Int)).toNat < (fcfsState b k).length := by
      rw [hvt, hlen]
      exact hk
    have hv2 : 0 < ((fcfsState b k).getD ((k : Int)).toNat default).burst_left := by
      rw [hvt, hrem]
      exact hcase
    have hrt : run_time_of (fcfsState b k) (k : Int) (b.getD k 0) = b.getD k 0 := by
      unfold run_time_of
      dsimp only
      rw [hvt, hrem, if_neg (by omega)]
    have hmain : run_proc (fcfsState b k) (k : Int) (b.getD k 0) =
        fcfsState b (k + 1) := by
      apply List.ext_getElem
      · rw [run_proc_length, length_fcfsState, length_fcfsState]
      · intro n h1 h2
        have hn : n < b.length := by
          rw [run_proc_length, length_fcfsState] at h1
          exact h1
        rw [← getD_lt _ n default h1, ← getD_lt _ n default h2]
        rw [run_proc_getD (fcfsState b k) (k : Int) (b.getD k 0)
          hv0 hv1 hv2 hcase n (by rw [hlen]; exact hn), hvt, hrt]
        rcases lt_trichotomy n k with hnk | hnk | hnk
        · have hEb : ((fcfsState b k).getD n default).burst_left = 0 := by
            rw [fcfsState_getD b k n hn]
            dsimp only
            rw [if_pos hnk]
          rw [if_neg (show ¬ n = k by omega),
              if_neg (show ¬ 0 < ((fcfsState b k).getD n default).burst_left by
                rw [hEb]; omega),
              fcfsState_getD b k n hn, fcfsState_getD b (k + 1) n hn,
              if_pos (show n < k by omega), if_pos (show n < k + 1 by omega)]
          have e1 : min n k = n := by omega
          have e2 : min n (k + 1) = n := by omega
          rw [e1, e2]
        · rw [if_pos (show n = k from hnk), fcfsState_getD b k n hn,
              fcfsState_getD b (k + 1) n hn]
          rw [hnk]
          dsimp only
          rw [if_neg (show ¬ k < k by omega),
              if_pos (show k < k + 1 by omega),
              if_pos hcase, if_pos hcase]
          have e1 : min k (k + 1) = k := by omega
          have e2 : min k k = k := by omega
          rw [e1, e2]
          congr 1
          omega
        · have hEb : ((fcfsState b k).getD n default).burst_left = b.getD n 0 := by
            rw [fcfsState_getD b k n hn]
            dsimp only
            rw [if_neg (show ¬ n < k by omega)]
          by_cases hbn : 0 < b.getD n 0
          · rw [if_neg (show ¬ n = k by omega),
                if_pos (show 0 < ((fcfsState b k).getD n default).burst_left by
                  rw [hEb]; exact hbn),
                fcfsState_getD b k n hn, fcfsState_getD b (k + 1) n hn]
            dsimp only
            rw [if_neg (show ¬ n < k by omega),
                if_neg (show ¬ n < k + 1 by omega), if_pos hbn, if_pos hbn]
            have e1 : min n k = k := by omega
            have e2 : min n (k + 1) = k + 1 := by omega
            rw [e1, e2, pSum_succ b k hk]
          · rw [if_neg (show ¬ n = k by omega),
                if_neg (show ¬ 0 < ((fcfsState b k).getD n default).burst_left by
                  rw [hEb]; omega),
                fcfsState_getD b k n hn, fcfsState_getD b (k + 1) n hn,
                if_neg (show ¬ n < k by omega),
                if_neg (show ¬ n < k + 1 by omega), if_neg hbn, if_neg hbn]
    rw [hmain, pSum_succ b k hk, fcfsSteps_succ b k hk, if_pos hcase]

theorem fcfs_fold_aux (b : List Int) (hb : ∀ x ∈ b, 0 ≤ x) :
    ∀ (n k : Nat), k + n = b.length →
      (List.range' k n).foldl fcfs_step
          (fcfsState b k, pSum b k, fcfsSteps b k) =
        (fcfsState b b.length, pSum b b.length, fcfsSteps b b.length) := by
  intro n
  induction n with
  | zero =>
    intro k hk
    have e : k = b.length := by omega
    subst e
    rfl
  | succ n ihn =>
    intro k hk
    have hklt : k < b.length := by omega
    rw [List.range'_succ, List.foldl_cons, fcfs_step_state b hb k hklt]
    exact ihn (k + 1) (by omega)

theorem fcfs_run_init (b : List Int) (hb : ∀ x ∈ b, 0 ≤ x) :
    fcfs_run (init_procs b) =
      (fcfsState b b.length, pSum b b.length, fcfsSteps b b.length) := by
  by_cases hlen : b.length = 0
  · have hnil : b = [] := List.length_eq_zero.mp hlen
    subst hnil
    rfl
  · unfold fcfs_run
    rw [if_neg (by rw [length_init_procs]; exact hlen), length_init_procs,
        List.range_eq_range']
    have h0 := fcfs_fold_aux b hb b.length 0 (by omega)
    rw [fcfsState_zero, pSum_zero, fcfsSteps_zero] at h0
    exact h0

/-! ### Folds of fcfs_step over inactive indices -/

theorem toNat_natCast_eq (n : Nat) : ((n : Int)).toNat = n := by omega

theorem fcfs_fold_skip (m s : Nat) (st : List Pcb × Int × Nat)
    (h : ∀ j, s ≤ j → j < s + m → (st.1.getD j default).burst_left ≤ 0) :
    (List.range' s m).foldl fcfs_step st = st := by
  induction m generalizing s with
  | zero => rfl
  | succ m ih =>
    rw [List.range'_succ, List.foldl_cons]
    have hstep : fcfs_step st s = st := by
      unfold fcfs_step
      dsimp only
      rw [if_pos (h s (le_refl s) (by omega))]
    rw [hstep]
    exact ih (s + 1) (fun j h1 h2 => h j (by omega) (by omega))

theorem default_burst : (default : Pcb).burst_left = 0 := rfl

theorem fcfs_fold_inactive (l : List Nat) (st : List Pcb × Int × Nat)
    (h : ∀ q ∈ st.1, q.burst_left ≤ 0) :
    l.foldl fcfs_step st = st := by
  induction l with
  | nil => rfl
  | cons i rest ih =>
    have hstep : fcfs_step st i = st := by
      unfold fcfs_step
      dsimp only
      rw [if_pos ?_]
      by_cases hi : i < st.1.length
      · exact (forall_mem_iff_getD _ _).mp h i hi
      · rw [List.getD_eq_default _ _ (by omega), default_burst]
    rw [List.foldl_cons, hstep]
    exact ih

/-! ### Round-Robin with a quantum at least every burst simulates FCFS -/

theorem rr_loop_eq_fcfs (quantum : Int) (_hq : 1 ≤ quantum) (fuel : Nat) :
    ∀ (procs : List Pcb) (current total : Int) (steps : Nat),
      (∀ q ∈ procs, 0 ≤ q.burst_left) →
      (∀ q ∈ procs, q.burst_left ≤ quantum) →
      0 ≤ current →
      current.toNat < procs.length →
      0 < ((procs.getD current.toNat default).burst_left) →
      (∀ j, j < current.toNat → (procs.getD j default).burst_left ≤ 0) →
      sumBurst procs ≤ (fuel : Int) →
      rr_loop quantum fuel procs current total steps =
        (List.range' current.toNat (procs.length - current.toNat)).foldl
          fcfs_step (procs, total, steps) := by
  induction fuel with
  | zero =>
    intro procs current total steps hnn hbq h0 hlt hact hprev hfuel
    exfalso
    have := getD_burst_le_sumBurst procs hnn current.toNat hlt
    omega
  | succ fuel ih =>
    intro procs current total steps hnn hbq h0 hlt hact hprev hfuel
    have hrem_le : (procs.getD current.toNat default).burst_left ≤ quantum :=
      (forall_mem_iff_getD _ procs).mp hbq current.toNat hlt
    have hrt_eq : (if (procs.getD current.toNat default).burst_left < quantum
        then (procs.getD current.toNat default).burst_left else quantum) =
        (procs.getD current.toNat default).burst_left := by
      split <;> omega
    rw [rr_loop_succ_active quantum fuel procs current total steps _ rfl hact,
        hrt_eq]
    set rem := (procs.getD current.toNat default).burst_left with hrem_def
    have hrange : procs.length - current.toNat =
        (procs.length - (current.toNat + 1)) + 1 := by omega
    rw [hrange, List.range'_succ, List.foldl_cons]
    have hstep : fcfs_step (procs, total, steps) current.toNat =
        (run_proc procs current rem, total + rem, steps + 1) := by
      unfold fcfs_step
      dsimp only
      rw [← hrem_def, if_neg (show ¬ rem ≤ 0 by omega),
          Int.toNat_of_nonneg h0]
    rw [hstep]
    have hrun_len : (run_proc procs current rem).length = procs.length :=
      run_proc_length _ _ _
    have hrt_of : run_time_of procs current rem = rem := by
      unfold run_time_of
      dsimp only
      rw [← hrem_def, if_neg (show ¬ rem < rem by omega)]
    have hnn' := run_proc_nonneg procs current rem hnn
    have hsum' : sumBurst (run_proc procs current rem) = sumBurst procs - rem := by
      rw [sumBurst_run_proc procs current rem h0 hlt hact (by omega), hrt_of]
    have hprev' : ∀ j, j ≤ current.toNat → j < procs.length →
        ((run_proc procs current rem).getD j default).burst_left ≤ 0 := by
      intro j hj hjlen
      rcases Nat.lt_or_ge j current.toNat with hlt2 | hge
      · have g1 := run_proc_getD_burst_le procs current rem j
        have g2 := hprev j hlt2
        omega
      · have hj_eq : j = current.toNat := by omega
        rw [hj_eq, run_proc_getD procs current rem h0 hlt hact (by omega)
          current.toNat hlt, if_pos rfl]
        dsimp only
        rw [← hrem_def, hrt_of]
        omega
    have hbq' : ∀ q ∈ run_proc procs current rem, q.burst_left ≤ quantum := by
      rw [forall_mem_iff_getD] at hbq ⊢
      intro j hj
      rw [hrun_len] at hj
      have g1 := run_proc_getD_burst_le procs current rem j
      have g2 := hbq j hj
      omega
    by_cases hnext : rr_next current (run_proc procs current rem) = -1
    · rw [if_pos hnext]
      have hallz := (rr_next_eq_neg_one_iff current _ (by omega) h0).mp hnext
      have hallz' : ∀ j, j < procs.length →
          ((run_proc procs current rem).getD j default).burst_left ≤ 0 := by
        intro j hj
        exact (forall_mem_iff_getD _ _).mp hallz j (by omega)
      rw [fcfs_fold_skip (procs.length - (current.toNat + 1))
        (current.toNat + 1) _ (fun j h1 h2 => hallz' j (by omega))]
    · rw [if_neg hnext]
      have hgt := rr_next_gt current (run_proc procs current rem)
        (by omega) h0 (by omega)
        (fun j hj hjlen => by have := hprev' j hj (by omega); omega)
      rcases hgt with hcontra | ⟨n, hn1, hn2, hn3, hn4, hn5⟩
      · exact absurd hcontra hnext
      rw [hn3]
      have hprev'' : ∀ j, j < n →
          ((run_proc procs current rem).getD j default).burst_left ≤ 0 := by
        intro j hj
        rcases le_or_lt j current.toNat with h1 | h1
        · exact hprev' j h1 (by omega)
        · have := hn5 j h1 hj
          omega
      have hihx := ih (run_proc procs current rem) (n : Int) (total + rem)
        (steps + 1) hnn' hbq' (by omega)
        (by rw [toNat_natCast_eq]; omega)
        (by rw [toNat_natCast_eq]; exact hn4)
        (fun j hj => by rw [toNat_natCast_eq] at hj; exact hprev'' j hj)
        (by omega)
      rw [toNat_natCast_eq, hrun_len] at hihx
      rw [hihx]
      have hsplit : List.range' (current.toNat + 1)
          (procs.length - (current.toNat + 1)) =
          List.range' (current.toNat + 1) (n - (current.toNat + 1)) ++
            List.range' n (procs.length - n) := by
        have happ := List.range'_append (current.toNat + 1)
          (n - (current.toNat + 1)) (procs.length - n) 1
        have e1 : (current.toNat + 1) + 1 * (n - (current.toNat + 1)) = n := by
          omega
        have e2 : (procs.length - n) + (n - (current.toNat + 1)) =
            procs.length - (current.toNat + 1) := by omega
        rw [e1, e2] at happ
        exact happ.symm
      rw [hsplit, List.foldl_append,
          fcfs_fold_skip (n - (current.toNat + 1)) (current.toNat + 1) _
            (fun j h1 h2 => hprev'' j (by omega))]

theorem rr_run_eq_fcfs_run (b : List Int) (q : Int)
    (hnn : ∀ x ∈ b, 0 ≤ x) (hbq : ∀ x ∈ b, x ≤ q) :
    rr_run (init_procs b) q = fcfs_run (init_procs b) := by
  have hnn' : ∀ p ∈ init_procs b, 0 ≤ p.burst_left := by
    rw [forall_mem_iff_getD]
    intro j hj
    rw [length_init_procs] at hj
    rw [init_procs_getD b j hj]
    exact (by rw [getD_lt b j 0 hj]; exact hnn _ (b.getElem_mem hj))
  have hbq' : ∀ p ∈ init_procs b, p.burst_left ≤ q := by
    rw [forall_mem_iff_getD]
    intro j hj
    rw [length_init_procs] at hj
    rw [init_procs_getD b j hj]
    exact (by rw [getD_lt b j 0 hj]; exact hbq _ (b.getElem_mem hj))
  by_cases hlen : (init_procs b).length = 0
  · unfold rr_run fcfs_run
    rw [if_pos (Or.inl hlen), if_pos hlen]
  · by_cases hq : q ≤ 0
    · have hz : ∀ p ∈ init_procs b, p.burst_left ≤ 0 := by
        intro p hp
        have g1 := hbq' p hp
        omega
      unfold rr_run fcfs_run
      rw [if_pos (Or.inr hq), if_neg hlen,
          fcfs_fold_inactive _ (init_procs b, 0, 0) hz]
    · unfold rr_run
      rw [if_neg (by push_neg; exact ⟨hlen, by omega⟩)]
      dsimp only
      by_cases hff : find_first (init_procs b) (init_procs b).length 0 = -1
      · rw [if_pos hff]
        have hno : ∀ p ∈ init_procs b, p.burst_left ≤ 0 := by
          rw [forall_mem_iff_getD]
          intro j hj
          by_contra hact
          exact find_first_complete (init_procs b) (init_procs b).length 0
            ⟨j, by omega, by omega, by omega⟩ hff
        unfold fcfs_run
        rw [if_neg hlen, fcfs_fold_inactive _ (init_procs b, 0, 0) hno]
      · rw [if_neg hff]
        obtain ⟨c, hc1, hc2, hc3, hc4, hc5⟩ :=
          find_first_sound (init_procs b) (init_procs b).length 0 hff
        rw [hc3]
        have hsim := rr_loop_eq_fcfs q (by omega) (sumBurstNat (init_procs b))
          (init_procs b) (c : Int) 0 0 hnn' hbq' (by omega)
          (by rw [toNat_natCast_eq]; omega)
          (by rw [toNat_natCast_eq]; exact hc4)
          (fun j hj => by
            rw [toNat_natCast_eq] at hj
            have := hc5 j (by omega) hj
            omega)
          (by rw [← sumBurstNat_cast _ hnn'])
        rw [hsim, toNat_natCast_eq]
        unfold fcfs_run
        rw [if_neg hlen, List.range_eq_range']
        have hsplit : List.range' 0 (init_procs b).length =
            List.range' 0 c ++
              List.range' c ((init_procs b).length - c) := by
          have happ := List.range'_append 0 c ((init_procs b).length - c) 1
          have e1 : 0 + 1 * c = c := by omega
          have e2 : ((init_procs b).length - c) + c =
              (init_procs b).length := by omega
          rw [e1, e2] at happ
          exact happ.symm
        rw [hsplit, List.foldl_append,
            fcfs_fold_skip c 0 _ (fun j h1 h2 => by
              show ((init_procs b).getD j default).burst_left ≤ 0
              have := hc5 j (by omega) (by omega)
              omega)]

/-! ### Driver-level consequences -/

theorem map_burst_init_loop (i : Nat) (l : List Int) :
    (init_loop i l).map (fun p => p.burst_left) = l := by
  induction l generalizing i with
  | nil => rfl
  | cons x rest ih => simp [init_loop, ih]

theorem sumBurst_init (b : List Int) : sumBurst (init_procs b) = b.sum := by
  unfold sumBurst init_procs
  rw [map_burst_init_loop]

theorem pSum_len (b : List Int) : pSum b b.length = b.sum := by
  unfold pSum
  rw [List.take_length]

theorem fcfsState_final_burst (b : List Int) (j : Nat) (hj : j < b.length) :
    ((fcfsState b b.length).getD j default).burst_left = 0 := by
  rw [fcfsState_getD b b.length j hj]
  dsimp only
  rw [if_pos hj]

theorem fcfs_run_total (b : List Int) (hb : ∀ x ∈ b, 0 ≤ x) :
    (fcfs_run (init_procs b)).2.1 = b.sum := by
  rw [fcfs_run_init b hb]
  exact pSum_len b

theorem fcfs_run_finished (b : List Int) (hb : ∀ x ∈ b, 0 ≤ x) :
    ∀ p ∈ (fcfs_run (init_procs b)).1, p.burst_left = 0 := by
  rw [fcfs_run_init b hb]
  rw [forall_mem_iff_getD]
  intro j hj
  dsimp only at hj ⊢
  rw [length_fcfsState] at hj
  exact fcfsState_final_burst b j hj

theorem fcfs_run_steps (b : List Int) (hb : ∀ x ∈ b, 0 ≤ x) :
    (fcfs_run (init_procs b)).2.2 ≤ b.length := by
  rw [fcfs_run_init b hb]
  show fcfsSteps b b.length ≤ b.length
  unfold fcfsSteps
  calc (b.take b.length).countP (fun x => 0 < x)
      ≤ (b.take b.length).length := List.countP_le_length _
    _ ≤ b.length := by rw [List.take_length]

theorem rr_run_spec (b : List Int) (q : Int)
    (hnn : ∀ x ∈ b, 0 ≤ x) (hq : 0 < q) :
    (rr_run (init_procs b) q).2.1 = b.sum ∧
    (∀ p ∈ (rr_run (init_procs b) q).1, p.burst_left = 0) ∧
    (rr_run (init_procs b) q).2.2 ≤ b.sum.toNat := by
  have hnn' : ∀ p ∈ init_procs b, 0 ≤ p.burst_left := by
    rw [forall_mem_iff_getD]
    intro j hj
    rw [length_init_procs] at hj
    rw [init_procs_getD b j hj]
    exact (by rw [getD_lt b j 0 hj]; exact hnn _ (b.getElem_mem hj))
  unfold rr_run
  by_cases hlen : (init_procs b).length = 0
  · rw [if_pos (Or.inl hlen)]
    have hb : b = [] := by
      rw [length_init_procs] at hlen
      exact List.length_eq_zero.mp hlen
    subst hb
    refine ⟨rfl, ?_, by decide⟩
    intro p hp
    simp [init_procs, init_loop] at hp
  · rw [if_neg (by push_neg; exact ⟨hlen, by omega⟩)]
    dsimp only
    by_cases hff : find_first (init_procs b) (init_procs b).length 0 = -1
    · rw [if_pos hff]
      have hno : ∀ p ∈ init_procs b, p.burst_left = 0 := by
        rw [forall_mem_iff_getD]
        intro j hj
        by_contra hact
        exact find_first_complete (init_procs b) (init_procs b).length 0
          ⟨j, by omega, by omega, by
            have g2 := (forall_mem_iff_getD _ (init_procs b)).mp hnn' j hj
            omega⟩ hff
      have hsum0 : b.sum = 0 := by
        rw [← sumBurst_init b]
        exact sumBurst_eq_zero _ hno
      refine ⟨by dsimp only; omega, hno, by dsimp only; omega⟩
    · rw [if_neg hff]
      obtain ⟨c, hc1, hc2, hc3, hc4, hc5⟩ :=
        find_first_sound (init_procs b) (init_procs b).length 0 hff
      rw [hc3]
      obtain ⟨h1, h2, h3⟩ := rr_loop_spec q (by omega)
        (sumBurstNat (init_procs b)) (init_procs b) (c : Int) 0 0 hnn'
        (by omega)
        (by rw [toNat_natCast_eq]; omega)
        (by rw [toNat_natCast_eq]; exact hc4)
        (by rw [← sumBurstNat_cast _ hnn'])
      refine ⟨?_, h2, ?_⟩
      · rw [h1, sumBurst_init]
        ring
      · rw [sumBurst_init] at h3
        omega

/-! ### Claim theorems -/

/-- C1: for every table, in-range `current` with positive remaining burst,
and positive `amount`, `run_proc` decrements exactly the current record's
`burst_left` by `runTime = min(amount, available)` (leaving its other
fields alone), adds the same `runTime` to the `wait` of every other record
that had `burst_left > 0`, and leaves every already-finished record
completely unchanged. -/
theorem C1_run_proc_step (procs : List Pcb) (current amount : Int)
    (h0 : 0 ≤ current) (h1 : current.toNat < procs.length)
    (h2 : 0 < ((procs.getD current.toNat default).burst_left))
    (h3 : 0 < amount) :
    ∀ j, j < procs.length →
      (j = current.toNat →
        (run_proc procs current amount).getD j default =
          { procs.getD j default with
              burst_left := (procs.getD j default).burst_left -
                min amount ((procs.getD current.toNat default).burst_left) }) ∧
      (j ≠ current.toNat → 0 < ((procs.getD j default).burst_left) →
        (run_proc procs current amount).getD j default =
          { procs.getD j default with
              wait := (procs.getD j default).wait +
                min amount ((procs.getD current.toNat default).burst_left) }) ∧
      (j ≠ current.toNat → (procs.getD j default).burst_left ≤ 0 →
        (run_proc procs current amount).getD j default =
          procs.getD j default) := by
  intro j hj
  have hmin := run_time_of_eq_min procs current amount
  rw [run_proc_getD procs current amount h0 h1 h2 h3 j hj]
  refine ⟨?_, ?_, ?_⟩
  · intro hjc
    rw [if_pos hjc, hmin]
  · intro hjc hact
    rw [if_neg hjc, if_pos hact, hmin]
  · intro hjc hfin
    rw [if_neg hjc, if_neg (by omega)]

theorem C1_run_proc_step_witness :
    0 ≤ (0 : Int) ∧ (0 : Int).toNat < (init_procs [5, 3, 8]).length ∧
    0 < ((init_procs [5, 3, 8]).getD (0 : Int).toNat default).burst_left ∧
    0 < (4 : Int) ∧
    ((1 : Nat) ≠ (0 : Int).toNat →
      0 < ((init_procs [5, 3, 8]).getD 1 default).burst_left →
      (run_proc (init_procs [5, 3, 8]) 0 4).getD 1 default =
        { (init_procs [5, 3, 8]).getD 1 default with
            wait := ((init_procs [5, 3, 8]).getD 1 default).wait +
              min 4 ((init_procs [5, 3, 8]).getD
                (0 : Int).toNat default).burst_left }) :=
  ⟨by decide, by decide, by decide, by decide,
    (C1_run_proc_step (init_procs [5, 3, 8]) 0 4 (by decide) (by decide)
      (by decide) (by decide) 1 (by decide)).2.1⟩

/-- C2: for every non-empty sequence of non-negative bursts and positive
quantum, the FCFS total and the Round-Robin total both equal the sum of
the original bursts (hence each other). -/
theorem C2_totals (b : List Int) (q : Int) (_hne : b ≠ [])
    (hnn : ∀ x ∈ b, 0 ≤ x) (hq : 0 < q) :
    (fcfs_run (init_procs b)).2.1 = b.sum ∧
      (rr_run (init_procs b) q).2.1 = b.sum :=
  ⟨fcfs_run_total b hnn, (rr_run_spec b q hnn hq).1⟩

theorem C2_totals_witness :
    ([5, 3, 8] : List Int) ≠ [] ∧ (∀ x ∈ ([5, 3, 8] : List Int), 0 ≤ x) ∧
    (0 : Int) < 4 ∧
    ((fcfs_run (init_procs [5, 3, 8])).2.1 = ([5, 3, 8] : List Int).sum ∧
      (rr_run (init_procs [5, 3, 8]) 4).2.1 = ([5, 3, 8] : List Int).sum) :=
  ⟨by decide, by decide, by decide,
    C2_totals [5, 3, 8] 4 (by decide) (by decide) (by decide)⟩

/-- C3: for every non-empty sequence of non-negative bursts, after either
driver runs to completion on a freshly created table every record's
`burst_left` is 0, and hence the sum of the remaining bursts is 0. -/
theorem C3_all_finished (b : List Int) (q : Int) (_hne : b ≠ [])
    (hnn : ∀ x ∈ b, 0 ≤ x) (hq : 0 < q) :
    (∀ p ∈ (fcfs_run (init_procs b)).1, p.burst_left = 0) ∧
      (∀ p ∈ (rr_run (init_procs b) q).1, p.burst_left = 0) ∧
      sumBurst (fcfs_run (init_procs b)).1 = 0 ∧
      sumBurst (rr_run (init_procs b) q).1 = 0 := by
  have h1 := fcfs_run_finished b hnn
  have h2 := (rr_run_spec b q hnn hq).2.1
  exact ⟨h1, h2, sumBurst_eq_zero _ h1, sumBurst_eq_zero _ h2⟩

theorem C3_all_finished_witness :
    ([5, 3, 8] : List Int) ≠ [] ∧ (∀ x ∈ ([5, 3, 8] : List Int), 0 ≤ x) ∧
    (0 : Int) < 4 ∧
    ((∀ p ∈ (fcfs_run (init_procs [5, 3, 8])).1, p.burst_left = 0) ∧
      (∀ p ∈ (rr_run (init_procs [5, 3, 8]) 4).1, p.burst_left = 0) ∧
      sumBurst (fcfs_run (init_procs [5, 3, 8])).1 = 0 ∧
      sumBurst (rr_run (init_procs [5, 3, 8]) 4).1 = 0) :=
  ⟨by decide, by decide, by decide,
    C3_all_finished [5, 3, 8] 4 (by decide) (by decide) (by decide)⟩

/-- C4: for every non-empty sequence of strictly positive bursts, after
`fcfs_run` on a fresh table, the final wait of process `i` is the sum of
the bursts of all processes with smaller id. -/
theorem C4_fcfs_waits (b : List Int) (_hne : b ≠ [])
    (hpos : ∀ x ∈ b, 0 < x) :
    ∀ i, i < b.length →
      ((fcfs_run (init_procs b)).1.getD i default).wait = (b.take i).sum := by
  intro i hi
  have hnn : ∀ x ∈ b, 0 ≤ x := fun x hx => le_of_lt (hpos x hx)
  rw [fcfs_run_init b hnn]
  dsimp only
  rw [fcfsState_getD b b.length i hi]
  dsimp only
  rw [if_pos (by rw [getD_lt b i 0 hi]; exact hpos _ (b.getElem_mem hi))]
  have e : min i b.length = i := by omega
  rw [e]
  rfl

theorem C4_fcfs_waits_witness :
    ([5, 3, 8] : List Int) ≠ [] ∧ (∀ x ∈ ([5, 3, 8] : List Int), 0 < x) ∧
    ((fcfs_run (init_procs [5, 3, 8])).1.getD 2 default).wait =
      (([5, 3, 8] : List Int).take 2).sum :=
  ⟨by decide, by decide,
    C4_fcfs_waits [5, 3, 8] (by decide) (by decide) 2 (by decide)⟩

/-- C5: for every non-empty table and in-range `current`, `rr_next` never
returns an id whose remaining burst is not positive, returns `-1` exactly
when no record has work, and otherwise returns the first id with
`burst_left > 0` scanning circularly from `(current + 1) mod size`. -/
theorem C5_rr_next_spec (current : Int) (procs : List Pcb)
    (hlen : 0 < procs.length) (h0 : 0 ≤ current)
    (_h1 : current.toNat < procs.length) :
    (rr_next current procs ≠ -1 →
      0 ≤ rr_next current procs ∧
      (rr_next current procs).toNat < procs.length ∧
      0 < ((procs.getD (rr_next current procs).toNat default).burst_left)) ∧
    (rr_next current procs = -1 ↔ ∀ p ∈ procs, p.burst_left ≤ 0) ∧
    ((∃ j, j < procs.length ∧ 0 < ((procs.getD j default).burst_left)) →
      ∃ m, m < procs.length ∧
        rr_next current procs =
          ((current + 1).tmod (procs.length : Int) + (m : Int)).tmod
            (procs.length : Int) ∧
        0 < ((procs.getD (rr_next current procs).toNat default).burst_left) ∧
        ∀ m' < m, ¬ 0 < ((procs.getD
          (((current + 1).tmod (procs.length : Int) + (m' : Int)).tmod
            (procs.length : Int)).toNat default).burst_left)) := by
  refine ⟨fun hne => rr_next_active current procs hlen h0 hne,
    rr_next_eq_neg_one_iff current procs hlen h0, fun hact => ?_⟩
  obtain ⟨m, g1, g2, g3, _, _, g6⟩ := rr_next_result current procs hlen h0 hact
  exact ⟨m, g1, g2, g3, g6⟩

theorem C5_rr_next_spec_witness :
    0 < (init_procs [5, 0, 8]).length ∧ (0 : Int) ≤ 0 ∧
    (0 : Int).toNat < (init_procs [5, 0, 8]).length ∧
    (rr_next 0 (init_procs [5, 0, 8]) = -1 ↔
      ∀ p ∈ init_procs [5, 0, 8], p.burst_left ≤ 0) :=
  ⟨by decide, by decide, by decide,
    (C5_rr_next_spec 0 (init_procs [5, 0, 8]) (by decide) (by decide)
      (by decide)).2.1⟩

/-- C6: every `run_proc` call keeps each record's `burst_left` non-negative
(when it was) and never increases it, never decreases any record's `wait`,
and leaves a record whose `burst_left` is already 0 entirely unchanged. -/
theorem C6_run_proc_invariants (procs : List Pcb) (current amount : Int)
    (j : Nat) (_hj : j < procs.length) :
    (0 ≤ ((procs.getD j default).burst_left) →
      0 ≤ (((run_proc procs current amount).getD j default).burst_left)) ∧
    ((run_proc procs current amount).getD j default).burst_left ≤
      (procs.getD j default).burst_left ∧
    (procs.getD j default).wait ≤
      ((run_proc procs current amount).getD j default).wait ∧
    ((procs.getD j default).burst_left = 0 →
      (run_proc procs current amount).getD j default =
        procs.getD j default) :=
  ⟨fun h => run_proc_getD_burst_nonneg procs current amount j h,
   run_proc_getD_burst_le procs current amount j,
   run_proc_getD_wait_le procs current amount j,
   fun h => run_proc_getD_finished procs current amount j h⟩

theorem C6_run_proc_invariants_witness :
    (0 : Nat) < (init_procs [5, 3, 8]).length ∧
    ((run_proc (init_procs [5, 3, 8]) 1 2).getD 0 default).burst_left ≤
      ((init_procs [5, 3, 8]).getD 0 default).burst_left :=
  ⟨by decide,
    (C6_run_proc_invariants (init_procs [5, 3, 8]) 1 2 0 (by decide)).2.1⟩

/-- C7: for every non-empty sequence of non-negative bursts and every
quantum at least every burst, `rr_run` produces exactly the same result
as `fcfs_run` on an identically created table; in particular every
process's final accumulated wait is the same. -/
theorem C7_rr_big_quantum (b : List Int) (q : Int) (_hne : b ≠ [])
    (hnn : ∀ x ∈ b, 0 ≤ x) (hmax : ∀ x ∈ b, x ≤ q) :
    rr_run (init_procs b) q = fcfs_run (init_procs b) ∧
    ∀ i, i < b.length →
      ((rr_run (init_procs b) q).1.getD i default).wait =
        ((fcfs_run (init_procs b)).1.getD i default).wait := by
  have h := rr_run_eq_fcfs_run b q hnn hmax
  exact ⟨h, fun i _ => by rw [h]⟩

theorem C7_rr_big_quantum_witness :
    ([5, 3, 8] : List Int) ≠ [] ∧ (∀ x ∈ ([5, 3, 8] : List Int), 0 ≤ x) ∧
    (∀ x ∈ ([5, 3, 8] : List Int), x ≤ 8) ∧
    rr_run (init_procs [5, 3, 8]) 8 = fcfs_run (init_procs [5, 3, 8]) :=
  ⟨by decide, by decide, by decide,
    (C7_rr_big_quantum [5, 3, 8] 8 (by decide) (by decide) (by decide)).1⟩

/-- C8: `run_proc` with an out-of-range current id, a non-positive amount,
or a current id whose remaining burst is 0, returns with the table
completely unchanged (a silent no-op, never a fault). -/
theorem C8_run_proc_silent_noop (procs : List Pcb) (current amount : Int)
    (h : current < 0 ∨ (procs.length : Int) ≤ current ∨ amount ≤ 0 ∨
      (procs.getD current.toNat default).burst_left = 0) :
    run_proc procs current amount = procs := by
  apply run_proc_noop
  rcases h with h | h | h | h
  · exact Or.inr (Or.inl h)
  · exact Or.inr (Or.inr (Or.inl h))
  · exact Or.inr (Or.inr (Or.inr (Or.inl h)))
  · exact Or.inr (Or.inr (Or.inr (Or.inr (by omega))))

theorem C8_run_proc_silent_noop_witness :
    ((5 : Int) < 0 ∨ ((init_procs [5, 3, 8]).length : Int) ≤ 5 ∨
      (3 : Int) ≤ 0 ∨
      ((init_procs [5, 3, 8]).getD (5 : Int).toNat default).burst_left = 0) ∧
    run_proc (init_procs [5, 3, 8]) 5 3 = init_procs [5, 3, 8] :=
  ⟨by decide, C8_run_proc_silent_noop (init_procs [5, 3, 8]) 5 3 (by decide)⟩

/-- C9 (amended): both drivers terminate; `fcfs_run` performs at most
`plen` advance steps, and `rr_run` with any positive quantum performs at
most `totalBurst` advance steps, where `totalBurst` is the sum of the
original bursts.  (The originally claimed `ceil(totalBurst/quantum)`
bound for Round-Robin is refuted by `C9_rr_ceil_counterexample`.) -/
theorem C9_step_bounds (b : List Int) (q : Int) (_hne : b ≠ [])
    (hnn : ∀ x ∈ b, 0 ≤ x) (hq : 0 < q) :
    (fcfs_run (init_procs b)).2.2 ≤ b.length ∧
    (rr_run (init_procs b) q).2.2 ≤ b.sum.toNat :=
  ⟨fcfs_run_steps b hnn, (rr_run_spec b q hnn hq).2.2⟩

theorem C9_step_bounds_witness :
    ([5, 3, 8] : List Int) ≠ [] ∧ (∀ x ∈ ([5, 3, 8] : List Int), 0 ≤ x) ∧
    (0 : Int) < 4 ∧
    ((fcfs_run (init_procs [5, 3, 8])).2.2 ≤ ([5, 3, 8] : List Int).length ∧
      (rr_run (init_procs [5, 3, 8]) 4).2.2 ≤
        ([5, 3, 8] : List Int).sum.toNat) :=
  ⟨by decide, by decide, by decide,
    C9_step_bounds [5, 3, 8] 4 (by decide) (by decide) (by decide)⟩

/-- C9 counterexample: with bursts `[1, 1]` and quantum 2, `rr_run`
performs 2 advance steps, which exceeds `ceil(totalBurst/quantum) = 1`,
so the claimed Round-Robin step bound is false. -/
theorem C9_rr_ceil_counterexample :
    (rr_run (init_procs [1, 1]) 2).2.2 = 2 ∧
    ¬ ((rr_run (init_procs [1, 1]) 2).2.2 ≤
        (([1, 1] : List Int).sum.toNat + 2 - 1) / 2) := by
  decide

/-- C10: `rr_run` with a non-positive quantum, an empty table, or a table
in which no record has remaining work, returns total 0 (and 0 steps) and
leaves every record of the table unchanged. -/
theorem C10_rr_run_degenerate (procs : List Pcb) (quantum : Int)
    (h : quantum ≤ 0 ∨ procs.length = 0 ∨ ∀ p ∈ procs, p.burst_left ≤ 0) :
    rr_run procs quantum = (procs, 0, 0) := by
  by_cases h1 : procs.length = 0 ∨ quantum ≤ 0
  · unfold rr_run
    rw [if_pos h1]
  · push_neg at h1
    rcases h with hq | hlen | hall
    · exact absurd hq (by omega)
    · exact absurd hlen h1.1
    · unfold rr_run
      rw [if_neg (by push_neg; exact ⟨h1.1, by omega⟩)]
      dsimp only
      have hff : find_first procs procs.length 0 = -1 := by
        by_contra hne
        obtain ⟨j, _, hj2, _, hact, _⟩ :=
          find_first_sound procs procs.length 0 hne
        have := (forall_mem_iff_getD _ procs).mp hall j (by omega)
        omega
      rw [if_pos hff]

theorem C10_rr_run_degenerate_witness :
    ((0 : Int) ≤ 0 ∨ (init_procs [5]).length = 0 ∨
      ∀ p ∈ init_procs [5], p.burst_left ≤ 0) ∧
    rr_run (init_procs [5]) 0 = (init_procs [5], 0, 0) :=
  ⟨by decide, C10_rr_run_degenerate (init_procs [5]) 0 (by decide)⟩
